import Mathlib

/-!
Verification of the best-parity coset distance-spectrum search engine.

The definitions below are a shallow embedding of the C sources:
the finite-field tables built by `gf_init`, the parity enumerator
(`chk_begin` / `chk_next`), the coset (codeword) enumerator
(`cw_begin` / `cw_next`), the parity check `chk_valid`, the
quadrance/neighbour tables `Q` / `V` with the selection sort of the
main program, the per-weight cutoff table `dcap`, the reflected
mixed-radix neighbour traversal of the main loop, and the spectrum
accumulation and comparison (`sp_cmp`).

Machine integers are modelled as `ℕ`; the two places where C unsigned
wrap-around can matter (the `qmax - w*cqmin` budget of `dcap`, and the
`da[j] + dd[j]` updates of the traversal) use explicit `% 2^32` resp.
`% 2^64` arithmetic mirroring `unsigned` resp. `size_t`.
-/

namespace BestParity

/-! ## Field module (`gf_init`, `gf_accmul` of the C sources)

The C code builds GF(2^m) tables from a primitive polynomial `P`:
`gf_size` is computed from the bit length of `P`; the antilog table
`gf_exp` is filled by repeated doubling with reduction by `P`; the log
table records the inverse assignments.
-/

/-- Table of primitive polynomials for GF(2^m), m = 0..10 (C: `primitives`). -/
def primitives : List ℕ := [0x1, 0x3, 0x7, 0xb, 0x13, 0x25, 0x43, 0x89, 0x11d, 0x221, 0x409]

/-- Bit length of a natural number, with explicit fuel so that it reduces
in the kernel (the C loop `for (p = P; p > 0; p >>= 1)`). -/
def bitlenAux : ℕ → ℕ → ℕ
  | 0, _ => 0
  | fuel+1, p => if p = 0 then 0 else bitlenAux fuel (p / 2) + 1

/-- Bit length of `p` (`p` itself is always enough fuel). -/
def bitlen (p : ℕ) : ℕ := bitlenAux p p

/-- Field size computed by `gf_init`: the loop doubles `gf_size` once per
bit of `P` and finally halves it, giving `2 ^ (bitlen P - 1)`. -/
def gfSize (P : ℕ) : ℕ := 2 ^ bitlen P / 2

/-- One step of the antilog generation loop of `gf_init`:
`x <<= 1; if (x >= gf_size) x ^= P;`. -/
def gfStep (P q x : ℕ) : ℕ :=
  let x2 := 2 * x
  if q ≤ x2 then x2 ^^^ P else x2

/-- The successive values taken by `x` in the `gf_init` table loop,
starting from `x = gf_one = 1`: these are exactly the values written into
`gf_exp[0], gf_exp[1], ...`. -/
def expGo (P q : ℕ) : ℕ → ℕ → List ℕ
  | 0, _ => []
  | fuel+1, x => x :: expGo P q fuel (gfStep P q x)

/-- The antilog table `gf_exp[0 .. q-2]` built by `gf_init P`. -/
def gfExpList (P : ℕ) : List ℕ := expGo P (gfSize P) (gfSize P - 1) 1

/-- Table lookup `gf_exp[k]`. -/
def gfExp (P k : ℕ) : ℕ := (gfExpList P).getD k 0

/-- Table lookup `gf_log[x]` for nonzero `x`.  The `gf_init` loop writes
`gf_log[x] = k` exactly when `gf_exp[k] = x`; as proved below the values
`gf_exp[0], ..., gf_exp[q-2]` are pairwise distinct, so each nonzero cell
is written exactly once and the written index is `indexOf x gf_exp`. -/
def gfLog (P x : ℕ) : ℕ := (gfExpList P).indexOf x

/-- Single eager pass over the multiplicative orbit of `gf_init`: checks
that every value taken by `x` during the table loop lies in `[1, q)` and
that after `fuel` steps `x` is back at `gf_one` (the primitivity check
`if (x != gf_one) error(...)` at the end of `gf_init`). -/
def orbitOk (P q : ℕ) : ℕ → ℕ → Bool
  | 0, x => x == 1
  | fuel+1, x => (decide (1 ≤ x) && decide (x < q)) && orbitOk P q fuel (gfStep P q x)

/-- Value of `x` after `fuel` steps of the `gf_init` loop, guarded so that
it reduces eagerly; `none` is returned if the orbit falls onto `0`
(it never does for the tabulated polynomials). -/
def orbitReach (P q : ℕ) : ℕ → ℕ → Option ℕ
  | 0, x => some x
  | fuel+1, x => if x = 0 then none else orbitReach P q fuel (gfStep P q x)

/-- Multiply-accumulate `gf_accmul`, parameterised by the field tables:
`acc <- acc + α^hlog * x`, a no-op when `x = 0`, otherwise
`acc ^= exp[(hlog + log[x]) % (q-1)]`. -/
def gfAccmul (q : ℕ) (exp log : ℕ → ℕ) (acc hlog x : ℕ) : ℕ :=
  if x = 0 then acc else acc ^^^ exp ((hlog + log x) % (q - 1))

/-! ### Basic facts about the orbit of the table loop -/

theorem expGo_length (P q : ℕ) : ∀ fuel x, (expGo P q fuel x).length = fuel := by
  intro fuel
  induction fuel with
  | zero => intro x; rfl
  | succ n ih => intro x; simp [expGo, ih]

theorem expGo_eq_map (P q : ℕ) :
    ∀ fuel x, expGo P q fuel x = (List.range fuel).map (fun k => (gfStep P q)^[k] x) := by
  intro fuel
  induction fuel with
  | zero => intro x; rfl
  | succ n ih =>
    intro x
    rw [List.range_succ_eq_map, List.map_cons, List.map_map]
    simp only [Function.iterate_zero, id_eq]
    rw [expGo, ih (gfStep P q x)]
    refine congrArg (x :: ·) (List.map_congr_left ?_)
    intro k _
    simp [Function.comp, Function.iterate_succ_apply]

theorem orbitOk_spec (P q : ℕ) : ∀ fuel x, orbitOk P q fuel x = true →
    (gfStep P q)^[fuel] x = 1 ∧ ∀ k < fuel, 1 ≤ (gfStep P q)^[k] x ∧ (gfStep P q)^[k] x < q := by
  intro fuel
  induction fuel with
  | zero =>
    intro x h
    simp only [orbitOk, beq_iff_eq] at h
    exact ⟨h, by omega⟩
  | succ n ih =>
    intro x h
    simp only [orbitOk, Bool.and_eq_true, decide_eq_true_eq] at h
    obtain ⟨⟨hx1, hxq⟩, hrest⟩ := h
    obtain ⟨hcyc, hmem⟩ := ih (gfStep P q x) hrest
    refine ⟨by rwa [Function.iterate_succ_apply], ?_⟩
    intro k hk
    cases k with
    | zero => exact ⟨hx1, hxq⟩
    | succ m =>
      rw [Function.iterate_succ_apply]
      exact hmem m (by omega)

theorem orbitReach_eq_some (P q : ℕ) :
    ∀ fuel x, (∀ k < fuel, (gfStep P q)^[k] x ≠ 0) →
      orbitReach P q fuel x = some ((gfStep P q)^[fuel] x) := by
  intro fuel
  induction fuel with
  | zero => intro x _; rfl
  | succ n ih =>
    intro x hnz
    have hx0 : x ≠ 0 := by
      have := hnz 0 (by omega)
      simpa using this
    simp only [orbitReach, if_neg hx0]
    rw [ih (gfStep P q x) fun k hk => by
      rw [← Function.iterate_succ_apply]
      exact hnz (k+1) (by omega)]
    rw [Function.iterate_succ_apply]

/-- Master lemma for `gf_init` correctness: if the table loop's orbit stays
in `[1, q)` and returns to `1` for the first time after exactly `q - 1`
steps, then the antilog list is a permutation of `[1, q)` and the two
tables are mutually inverse. -/
theorem gf_tables_correct (P q : ℕ) (hq : 2 ≤ q)
    (horb : orbitOk P q (q - 1) 1 = true)
    (hdiv : ∀ d ∈ (q - 1).divisors, d ≠ q - 1 → orbitReach P q d 1 ≠ some 1) :
    (expGo P q (q - 1) 1).Perm (List.range' 1 (q - 1)) ∧
    (∀ x, 1 ≤ x → x < q →
      (expGo P q (q - 1) 1).getD ((expGo P q (q - 1) 1).indexOf x) 0 = x) ∧
    (∀ k, k < q - 1 →
      (expGo P q (q - 1) 1).indexOf ((expGo P q (q - 1) 1).getD k 0) = k) := by
  obtain ⟨hcyc, hmem⟩ := orbitOk_spec P q (q - 1) 1 horb
  set f := gfStep P q with hf
  set L := expGo P q (q - 1) 1 with hL
  have hlen : L.length = q - 1 := expGo_length P q (q - 1) 1
  have hper : Function.IsPeriodicPt f (q - 1) 1 := hcyc
  have hq1 : 0 < q - 1 := by omega
  -- the minimal period of 1 under f is exactly q - 1
  have hmp : Function.minimalPeriod f 1 = q - 1 := by
    have hdvd : Function.minimalPeriod f 1 ∣ q - 1 := hper.minimalPeriod_dvd
    have hpos : 0 < Function.minimalPeriod f 1 := hper.minimalPeriod_pos hq1
    by_contra hne
    have hlt : Function.minimalPeriod f 1 < q - 1 :=
      lt_of_le_of_ne (Nat.le_of_dvd hq1 hdvd) hne
    have hmem' : Function.minimalPeriod f 1 ∈ (q - 1).divisors :=
      Nat.mem_divisors.mpr ⟨hdvd, by omega⟩
    refine hdiv _ hmem' hne ?_
    have hnz : ∀ k < Function.minimalPeriod f 1, f^[k] 1 ≠ 0 := by
      intro k hk
      have := hmem k (by omega)
      omega
    rw [orbitReach_eq_some P q (Function.minimalPeriod f 1) 1 hnz]
    have hmin : f^[Function.minimalPeriod f 1] 1 = 1 := Function.isPeriodicPt_minimalPeriod f 1
    rw [hmin]
  -- the orbit elements are pairwise distinct
  have hmapL : L = (List.range (q - 1)).map (fun k => f^[k] 1) := expGo_eq_map P q (q - 1) 1
  have hnodup : L.Nodup := by
    rw [hmapL]
    refine List.Nodup.map_on ?_ (List.nodup_range _)
    intro a ha b hb hab
    have ha' : a ∈ Set.Iio (Function.minimalPeriod f 1) := by
      rw [hmp]; exact List.mem_range.mp ha
    have hb' : b ∈ Set.Iio (Function.minimalPeriod f 1) := by
      rw [hmp]; exact List.mem_range.mp hb
    exact Function.iterate_injOn_Iio_minimalPeriod ha' hb' hab
  have hsub : L ⊆ List.range' 1 (q - 1) := by
    intro y hy
    rw [hmapL] at hy
    obtain ⟨k, hk, rfl⟩ := List.mem_map.mp hy
    have hk' := hmem k (List.mem_range.mp hk)
    rw [List.mem_range'_1]
    omega
  have hperm : L.Perm (List.range' 1 (q - 1)) :=
    (List.subperm_of_subset hnodup hsub).perm_of_length_le
      (by rw [hlen, List.length_range'])
  refine ⟨hperm, ?_, ?_⟩
  · intro x hx1 hxq
    have hxL : x ∈ L := hperm.mem_iff.mpr (by rw [List.mem_range'_1]; omega)
    have hidx : L.indexOf x < L.length := List.indexOf_lt_length.mpr hxL
    rw [List.getD_eq_getElem _ _ hidx]
    exact List.getElem_indexOf hidx
  · intro k hk
    have hk' : k < L.length := by omega
    rw [List.getD_eq_getElem _ _ hk']
    exact List.indexOf_getElem hnodup k hk'

set_option maxRecDepth 10000 in
/-- C6: for every primitive polynomial in the built-in table (degree m
from 1 to 10), after `gf_init` the antilog table `gf_exp` restricted to
indices `[0, q-1)` is a permutation of the nonzero field elements
`[1, q)`, and the tables are mutually inverse:
`gf_exp[gf_log[x]] = x` for every nonzero `x` in `[1, q)`, and
`gf_log[gf_exp[k]] = k` for every `k` in `[0, q-1)`. -/
theorem gf_init_tables_perm_and_inverse :
    ∀ m, 1 ≤ m → m ≤ 10 →
    (gfExpList (primitives.getD m 0)).Perm
      (List.range' 1 (gfSize (primitives.getD m 0) - 1)) ∧
    (∀ x, 1 ≤ x → x < gfSize (primitives.getD m 0) →
      gfExp (primitives.getD m 0) (gfLog (primitives.getD m 0) x) = x) ∧
    (∀ k, k < gfSize (primitives.getD m 0) - 1 →
      gfLog (primitives.getD m 0) (gfExp (primitives.getD m 0) k) = k) := by
  intro m hm1 hm10
  interval_cases m <;>
    exact gf_tables_correct _ _ (by decide) (by decide) (by decide)

/-- Witness for C6 at m = 2 (the GF(4) field used by the regression
scenario): the hypotheses of the claim theorem hold at a concrete input. -/
theorem gf_init_tables_perm_and_inverse_witness :
    (gfExpList 7).Perm (List.range' 1 3) ∧
    (∀ x, 1 ≤ x → x < 4 → gfExp 7 (gfLog 7 x) = x) ∧
    (∀ k, k < 3 → gfLog 7 (gfExp 7 k) = k) :=
  gf_init_tables_perm_and_inverse 2 (by decide) (by decide)

/-! ## Parity-check vectors and codeword (coset) enumeration

The C functions `chk_valid`, `chk_begin`, `chk_next`, `cw_begin`,
`cw_next` of the richest variant.  They are parameterised by the field
size `q` and the two tables `exp`/`log` (global state in C).
-/

/-- Accumulation loop shared by `chk_valid` and `cw_next`:
`acc = 0; for i: gf_accmul(&acc, h[i], x[i])` over paired entries. -/
def chkSum (q : ℕ) (exp log : ℕ → ℕ) (hs xs : List ℕ) : ℕ :=
  (hs.zip xs).foldl (fun acc p => gfAccmul q exp log acc p.1 p.2) 0

/-- The check `chk_valid n h x` of the richest variant: accumulates
`Σ_{i<n-1} α^{h_i}·x_i` and compares the result with `x[n-1]`. -/
def chkValid (q : ℕ) (exp log : ℕ → ℕ) (n : ℕ) (h x : List ℕ) : Bool :=
  chkSum q exp log (h.take (n-1)) (x.take (n-1)) == x.getD (n-1) 0

/-- The codeword iterator start `cw_begin`: the all-zero word. -/
def cwBegin (n : ℕ) : List ℕ := List.replicate n 0

/-- The base-`q` odometer shared by `cw_next` (and, in the other
variants, `delta_next`): zero every leading digit equal to `q-1`
(passed as `qm1`), then increment the first other digit; `none` when all
digits were maximal. -/
def odoNext (qm1 : ℕ) : List ℕ → Option (List ℕ)
  | [] => none
  | v :: vs => if v = qm1 then (odoNext qm1 vs).map (0 :: ·) else some ((v+1) :: vs)

/-- The codeword iterator step `cw_next n h x`: advance the odometer on
the free coordinates `x[0..n-2]`, then recompute the determined last
coordinate `x[n-1] = Σ_{i<n-1} α^{h_i}·x_i` (the last coefficient of `h`
is the exponent 0, i.e. the field value 1, which in characteristic 2
makes this the unique solution of the parity constraint). -/
def cwNext (q : ℕ) (exp log : ℕ → ℕ) (n : ℕ) (h x : List ℕ) : Option (List ℕ) :=
  (odoNext (q-1) (x.take (n-1))).map
    (fun free => free ++ [chkSum q exp log (h.take (n-1)) free])

/-- State of the codeword enumerator after `k` successful `cw_next`
steps from `cw_begin` (`none` once the enumeration is exhausted). -/
def cwSeq (q : ℕ) (exp log : ℕ → ℕ) (n : ℕ) (h : List ℕ) : ℕ → Option (List ℕ)
  | 0 => some (cwBegin n)
  | k+1 => (cwSeq q exp log n h k).bind (cwNext q exp log n h)

/-! ### C2: every enumerated codeword satisfies the parity constraint -/

theorem chkSum_zero (q : ℕ) (exp log : ℕ → ℕ) (hs : List ℕ) (m : ℕ) :
    chkSum q exp log hs (List.replicate m 0) = 0 := by
  induction hs generalizing m with
  | nil => rfl
  | cons a hs ih =>
    cases m with
    | zero => rfl
    | succ m =>
      simp only [List.replicate_succ, chkSum, List.zip_cons_cons, List.foldl_cons]
      have : gfAccmul q exp log 0 a 0 = 0 := by simp [gfAccmul]
      rw [this]
      exact ih m

theorem odoNext_length (qm1 : ℕ) :
    ∀ l l', odoNext qm1 l = some l' → l'.length = l.length := by
  intro l
  induction l with
  | nil => intro l' hl; simp [odoNext] at hl
  | cons v vs ih =>
    intro l' hl
    by_cases hv : v = qm1
    · simp only [odoNext, if_pos hv, Option.map_eq_some'] at hl
      obtain ⟨w, hw, rfl⟩ := hl
      simp [ih w hw]
    · simp only [odoNext, if_neg hv, Option.some.injEq] at hl
      simp [← hl]

theorem cwSeq_length (q : ℕ) (exp log : ℕ → ℕ) (n : ℕ) (hn : 1 ≤ n) (h : List ℕ) :
    ∀ k x, cwSeq q exp log n h k = some x → x.length = n := by
  intro k
  induction k with
  | zero =>
    intro x hx
    simp only [cwSeq, Option.some.injEq] at hx
    simp [← hx, cwBegin]
  | succ k ih =>
    intro x hx
    simp only [cwSeq, Option.bind_eq_some] at hx
    obtain ⟨y, hy, hnext⟩ := hx
    have hylen := ih y hy
    simp only [cwNext, Option.map_eq_some'] at hnext
    obtain ⟨free, hfree, rfl⟩ := hnext
    have hflen : free.length = n - 1 := by
      rw [odoNext_length (q-1) _ _ hfree, List.length_take, hylen]
      omega
    simp only [List.length_append, hflen, List.length_singleton]
    omega

/-- C2: for every parity vector `h` and every codeword `x` produced by the
coset enumerator (`cw_begin` followed by any number of `cw_next` calls that
returned a next codeword), the parity constraint holds exactly, i.e.
`chk_valid n h x` is true.  The statement is parameterised by arbitrary
field tables, so it holds in particular for the tables built by `gf_init`. -/
theorem cw_codewords_satisfy_parity (q : ℕ) (exp log : ℕ → ℕ) (n : ℕ) (hn : 1 ≤ n)
    (h : List ℕ) (k : ℕ) (x : List ℕ) (hx : cwSeq q exp log n h k = some x) :
    chkValid q exp log n h x = true := by
  cases k with
  | zero =>
    simp only [cwSeq, Option.some.injEq] at hx
    subst hx
    simp only [chkValid, cwBegin, beq_iff_eq, List.take_replicate]
    have h1 : (List.replicate n (0:ℕ)).getD (n-1) 0 = 0 := by
      rw [List.getD_eq_getElem _ _ (by simp; omega)]
      simp
    rw [h1]
    have h2 : min (n-1) n = n - 1 := by omega
    rw [h2, chkSum_zero]
  | succ k =>
    simp only [cwSeq, Option.bind_eq_some] at hx
    obtain ⟨y, hy, hnext⟩ := hx
    simp only [cwNext, Option.map_eq_some'] at hnext
    obtain ⟨free, hfree, rfl⟩ := hnext
    have hflen : free.length = n - 1 := by
      rw [odoNext_length (q-1) _ _ hfree, List.length_take,
        cwSeq_length q exp log n hn h k y hy]
      omega
    simp only [chkValid, beq_iff_eq]
    rw [List.take_left' hflen,
      List.getD_append_right _ _ _ _ (le_of_eq hflen), hflen]
    simp

/-- Witness for C2: the second codeword of the coset of the parity
`(2,1,0)` over GF(4) satisfies the check. -/
theorem cw_codewords_satisfy_parity_witness :
    chkValid 4 (gfExp 7) (gfLog 7) 3 [2,1,0] [1,0,3] = true :=
  cw_codewords_satisfy_parity 4 (gfExp 7) (gfLog 7) 3 (by decide) [2,1,0] 1 [1,0,3]
    (by decide)

/-! ### C3: the coset enumerator yields exactly q^(n-1) distinct codewords -/

/-- Little-endian base-q value encoded by the free digits of the odometer. -/
def odoVal (q : ℕ) : List ℕ → ℕ
  | [] => 0
  | v :: vs => v + q * odoVal q vs

theorem odoNext_none_iff (qm1 : ℕ) :
    ∀ l, odoNext qm1 l = none ↔ ∀ v ∈ l, v = qm1 := by
  intro l
  induction l with
  | nil => simp [odoNext]
  | cons v vs ih =>
    by_cases hv : v = qm1
    · simp [odoNext, if_pos hv, Option.map_eq_none', ih, hv]
    · simp [odoNext, if_neg hv, hv]

theorem odoNext_some_spec (q : ℕ) (hq : 1 ≤ q) :
    ∀ l l', (∀ v ∈ l, v < q) → odoNext (q-1) l = some l' →
      (∀ v ∈ l', v < q) ∧ odoVal q l' = odoVal q l + 1 := by
  intro l
  induction l with
  | nil => intro l' _ hl; simp [odoNext] at hl
  | cons v vs ih =>
    intro l' hb hl
    by_cases hv : v = q - 1
    · simp only [odoNext, if_pos hv, Option.map_eq_some'] at hl
      obtain ⟨w, hw, rfl⟩ := hl
      obtain ⟨hwb, hwv⟩ := ih w (fun u hu => hb u (List.mem_cons_of_mem v hu)) hw
      constructor
      · intro u hu
        rcases List.mem_cons.mp hu with rfl | hu
        · omega
        · exact hwb u hu
      · simp only [odoVal, hwv, hv]
        have : q * (odoVal q vs + 1) = q * odoVal q vs + q := by ring
        omega
    · simp only [odoNext, if_neg hv, Option.some.injEq] at hl
      subst hl
      have hvq : v < q := hb v (List.mem_cons_self v vs)
      constructor
      · intro u hu
        rcases List.mem_cons.mp hu with rfl | hu
        · omega
        · exact hb u (List.mem_cons_of_mem v hu)
      · simp [odoVal]
        omega

theorem odoVal_lt (q : ℕ) : ∀ l, (∀ v ∈ l, v < q) → odoVal q l < q ^ l.length := by
  intro l
  induction l with
  | nil => intro _; simp [odoVal]
  | cons v vs ih =>
    intro hb
    have hv : v < q := hb v (List.mem_cons_self v vs)
    have hvs : odoVal q vs < q ^ vs.length := ih fun u hu => hb u (List.mem_cons_of_mem v hu)
    simp only [odoVal, List.length_cons, pow_succ]
    calc v + q * odoVal q vs < q + q * odoVal q vs := by omega
    _ = q * (odoVal q vs + 1) := by ring
    _ ≤ q * q ^ vs.length := Nat.mul_le_mul_left q hvs
    _ = q ^ vs.length * q := by ring

theorem odoVal_of_all_max (q : ℕ) (hq : 1 ≤ q) :
    ∀ l, (∀ v ∈ l, v = q - 1) → odoVal q l = q ^ l.length - 1 := by
  intro l
  induction l with
  | nil => intro _; simp [odoVal]
  | cons v vs ih =>
    intro hb
    have hv : v = q - 1 := hb v (List.mem_cons_self v vs)
    have hvs := ih fun u hu => hb u (List.mem_cons_of_mem v hu)
    have hpow : 1 ≤ q ^ vs.length := Nat.one_le_pow _ _ (by omega)
    simp only [odoVal, List.length_cons, pow_succ, hv, hvs]
    have hB : q * (q ^ vs.length - 1) + q = q * q ^ vs.length := by
      rw [← Nat.mul_succ]
      congr 1
      omega
    have hcomm : q * q ^ vs.length = q ^ vs.length * q := Nat.mul_comm _ _
    omega

theorem cwSeq_inv (q : ℕ) (exp log : ℕ → ℕ) (n : ℕ) (h : List ℕ)
    (hq : 1 ≤ q) (hn : 1 ≤ n) :
    ∀ k x, cwSeq q exp log n h k = some x →
      (∀ v ∈ x.take (n-1), v < q) ∧ odoVal q (x.take (n-1)) = k := by
  intro k
  induction k with
  | zero =>
    intro x hx
    simp only [cwSeq, Option.some.injEq] at hx
    subst hx
    rw [cwBegin, List.take_replicate]
    constructor
    · intro v hv
      rw [List.eq_of_mem_replicate hv]
      omega
    · generalize (min (n-1) n) = m
      induction m with
      | zero => rfl
      | succ m ihm => simp only [List.replicate_succ, odoVal, ihm]; ring
  | succ k ih =>
    intro x hx
    simp only [cwSeq, Option.bind_eq_some] at hx
    obtain ⟨y, hy, hnext⟩ := hx
    obtain ⟨hbnd, hval⟩ := ih y hy
    simp only [cwNext, Option.map_eq_some'] at hnext
    obtain ⟨free, hfree, rfl⟩ := hnext
    have hflen : free.length = n - 1 := by
      rw [odoNext_length (q-1) _ _ hfree, List.length_take,
        cwSeq_length q exp log n hn h k y hy]
      omega
    obtain ⟨hb', hv'⟩ := odoNext_some_spec q hq _ free hbnd hfree
    rw [List.take_left' hflen]
    exact ⟨hb', by omega⟩

/-- C3: for every parity vector `h` of length `n`, the coset enumerator
(`cw_begin` followed by repeated `cw_next` until it fails) enumerates
exactly `q^(n-1)` codewords, all pairwise distinct.  Again stated for
arbitrary field tables. -/
theorem cw_coset_size (q : ℕ) (exp log : ℕ → ℕ) (n : ℕ) (h : List ℕ)
    (hq : 1 ≤ q) (hn : 1 ≤ n) :
    (∀ k, k < q^(n-1) → (cwSeq q exp log n h k).isSome) ∧
    cwSeq q exp log n h (q^(n-1)) = none ∧
    (∀ j k, j < k → k < q^(n-1) →
      cwSeq q exp log n h j ≠ cwSeq q exp log n h k) := by
  have hsome : ∀ k, k < q^(n-1) → (cwSeq q exp log n h k).isSome := by
    intro k
    induction k with
    | zero => intro _; simp [cwSeq]
    | succ k ih =>
      intro hk
      obtain ⟨x, hx⟩ := Option.isSome_iff_exists.mp (ih (by omega))
      obtain ⟨hbnd, hval⟩ := cwSeq_inv q exp log n h hq hn k x hx
      have hlen : (x.take (n-1)).length = n - 1 := by
        rw [List.length_take, cwSeq_length q exp log n hn h k x hx]
        omega
      rcases ho : odoNext (q-1) (x.take (n-1)) with _ | free
      · exfalso
        have hmax := (odoNext_none_iff (q-1) _).mp ho
        have := odoVal_of_all_max q hq _ hmax
        rw [hval, hlen] at this
        have hpow : 1 ≤ q ^ (n-1) := Nat.one_le_pow _ _ (by omega)
        omega
      · simp only [cwSeq, hx, Option.some_bind, cwNext, ho, Option.map_some', Option.isSome_some]
  refine ⟨hsome, ?_, ?_⟩
  · have hpow : 1 ≤ q ^ (n-1) := Nat.one_le_pow _ _ (by omega)
    have hpred : q^(n-1) = (q^(n-1) - 1) + 1 := by omega
    obtain ⟨x, hx⟩ := Option.isSome_iff_exists.mp (hsome (q^(n-1) - 1) (by omega))
    obtain ⟨hbnd, hval⟩ := cwSeq_inv q exp log n h hq hn _ x hx
    have hlen : (x.take (n-1)).length = n - 1 := by
      rw [List.length_take, cwSeq_length q exp log n hn h _ x hx]
      omega
    rw [hpred]
    simp only [cwSeq, hx, Option.some_bind, cwNext]
    rcases ho : odoNext (q-1) (x.take (n-1)) with _ | free
    · simp [ho]
    · exfalso
      obtain ⟨hb', hv'⟩ := odoNext_some_spec q hq _ free hbnd ho
      have hfl : free.length = n - 1 := by
        rw [odoNext_length (q-1) _ _ ho, hlen]
      have := odoVal_lt q free hb'
      rw [hfl, hv', hval] at this
      omega
  · intro j k hjk hk hEq
    obtain ⟨xj, hxj⟩ := Option.isSome_iff_exists.mp (hsome j (by omega))
    obtain ⟨xk, hxk⟩ := Option.isSome_iff_exists.mp (hsome k hk)
    rw [hxj, hxk] at hEq
    obtain ⟨_, hvj⟩ := cwSeq_inv q exp log n h hq hn j xj hxj
    obtain ⟨_, hvk⟩ := cwSeq_inv q exp log n h hq hn k xk hxk
    have : xj = xk := by injection hEq
    rw [this, hvk] at hvj
    omega

/-- Witness for C3: the GF(4), n = 3 coset of the parity `(2,1,0)` has
exactly 16 codewords. -/
theorem cw_coset_size_witness :
    (∀ k, k < 16 → (cwSeq 4 (gfExp 7) (gfLog 7) 3 [2,1,0] k).isSome) ∧
    cwSeq 4 (gfExp 7) (gfLog 7) 3 [2,1,0] 16 = none ∧
    (∀ j k, j < k → k < 16 →
      cwSeq 4 (gfExp 7) (gfLog 7) 3 [2,1,0] j ≠ cwSeq 4 (gfExp 7) (gfLog 7) 3 [2,1,0] k) :=
  cw_coset_size 4 (gfExp 7) (gfLog 7) 3 [2,1,0] (by decide) (by decide)

/-! ## Parity enumerator (`chk_begin` / `chk_next`) -/

/-- The iterator start `chk_begin n`: `h[i] = n-1-i` for `i < n-1` and
`h[n-1] = 0`; since `n-1-(n-1) = 0`, the last cell follows the same
formula. -/
def chkBegin (n : ℕ) : List ℕ := (List.range n).map (fun i => n - 1 - i)

/-- The scan/increment of `chk_next`, at absolute position `i`: the C
loop `for (i = 0; h[i] >= gf_size_minus_1 - i - 1; ++i)` with early exit
`if (i + 3 > n) return false`, then `for (h[i]++; i; i--) h[i-1] = h[i] + 1`.
For a list of length `n`, position `i` holds the suffix of length `n - i`,
so `i + 3 > n` is exactly `rest.length ≤ 1`; the downward reset writes
`h[i-1] = h[i] + 1` on the new values, i.e. each saturated head becomes
the successor of the head of the recursive result.  The saturation bound
`gf_size_minus_1 - i - 1` is a C `size_t` subtraction, modelled by
truncated subtraction; the two agree because the scan only visits
positions `i ≤ n - 2` and the program enforces `n < q`. -/
def chkNextAux (qm1 : ℕ) : ℕ → List ℕ → Option (List ℕ)
  | _, [] => none
  | i, x :: rest =>
    if qm1 - (i+1) ≤ x then
      if rest.length ≤ 1 then none
      else (chkNextAux qm1 (i+1) rest).map (fun r => (r.headD 0 + 1) :: r)
    else some ((x+1) :: rest)

/-- The iterator step `chk_next`. -/
def chkNext (q : ℕ) (h : List ℕ) : Option (List ℕ) := chkNextAux (q - 1) 0 h

/-- State of the parity enumerator after `k` successful `chk_next` steps
from `chk_begin` (`none` once the enumeration is exhausted). -/
def chkSeq (q n : ℕ) : ℕ → Option (List ℕ)
  | 0 => some (chkBegin n)
  | k+1 => (chkSeq q n k).bind (chkNext q)

theorem chkNextAux_spec (q : ℕ) :
    ∀ (s : List ℕ) (i : ℕ) (s' : List ℕ),
      chkNextAux (q-1) i s = some s' →
      2 ≤ s.length →
      List.Chain' (· > ·) s →
      (∀ j, j + 1 < s.length → s.getD j 0 ≤ q - 2 - (i + j)) →
      s'.length = s.length ∧
      List.Chain' (· > ·) s' ∧
      (∀ j, j + 1 < s'.length → s'.getD j 0 ≤ q - 2 - (i + j)) ∧
      s'.getLast? = s.getLast? ∧
      odoVal q s < odoVal q s' ∧
      i + 3 ≤ q := by
  intro s
  induction s with
  | nil => intro i s' hs; simp [chkNextAux] at hs
  | cons x rest ih =>
    intro i s' hs hlen hchain hbnd
    simp only [chkNextAux] at hs
    by_cases hsat : q - 1 - (i+1) ≤ x
    · rw [if_pos hsat] at hs
      by_cases hterm : rest.length ≤ 1
      · rw [if_pos hterm] at hs
        simp at hs
      · rw [if_neg hterm] at hs
        simp only [Option.map_eq_some'] at hs
        obtain ⟨r, hr, rfl⟩ := hs
        have hrest2 : 2 ≤ rest.length := by omega
        have hchain2 : List.Chain' (· > ·) rest := hchain.tail
        have hbnd2 : ∀ j, j + 1 < rest.length → rest.getD j 0 ≤ q - 2 - (i + 1 + j) := by
          intro j hj
          have := hbnd (j+1) (by simp only [List.length_cons]; omega)
          simp only [List.getD_cons_succ] at this
          omega
        obtain ⟨hrl, hrc, hrb, hrlast, hrval, hiq⟩ := ih (i+1) r hr hrest2 hchain2 hbnd2
        have hxq : x < q := by
          have := hbnd 0 (by simp only [List.length_cons]; omega)
          simp only [List.getD_cons_zero] at this
          omega
        rcases r with _ | ⟨rh, rt⟩
        · simp at hrl; omega
        rcases rest with _ | ⟨y, ys⟩
        · simp at hrest2
        refine ⟨by simpa using hrl, ?_, ?_, ?_, ?_, by omega⟩
        · simp only [List.headD_cons]
          exact List.chain'_cons.mpr ⟨by omega, hrc⟩
        · intro j hj
          cases j with
          | zero =>
            have hr0 : (rh :: rt).getD 0 0 ≤ q - 2 - (i + 1) := by
              refine hrb 0 ?_
              simp only [List.length_cons] at hrl hrest2 ⊢
              omega
            simp only [List.getD_cons_zero, List.headD_cons] at hr0 ⊢
            omega
          | succ j =>
            simp only [List.headD_cons, List.getD_cons_succ]
            have hjr : j + 1 < (rh :: rt).length := by
              simp only [List.length_cons] at hj ⊢
              omega
            have := hrb j hjr
            omega
        · rw [List.headD_cons, List.getLast?_cons_cons, hrlast, List.getLast?_cons_cons]
        · show x + q * odoVal q (y :: ys) <
            ((rh :: rt).headD 0 + 1) + q * odoVal q (rh :: rt)
          have hstep : q * (odoVal q (y :: ys) + 1) ≤ q * odoVal q (rh :: rt) :=
            Nat.mul_le_mul_left q (by omega)
          calc x + q * odoVal q (y :: ys)
              < q + q * odoVal q (y :: ys) := by
                exact Nat.add_lt_add_right hxq _
            _ = q * (odoVal q (y :: ys) + 1) := by ring
            _ ≤ q * odoVal q (rh :: rt) := hstep
            _ ≤ ((rh :: rt).headD 0 + 1) + q * odoVal q (rh :: rt) := Nat.le_add_left _ _
    · rw [if_neg hsat] at hs
      simp only [Option.some.injEq] at hs
      subst hs
      have hq3 : i + 3 ≤ q := by omega
      rcases rest with _ | ⟨y, ys⟩
      · simp at hlen
      obtain ⟨hxy, hrest⟩ := List.chain'_cons.mp hchain
      refine ⟨by simp, List.chain'_cons.mpr ⟨by omega, hrest⟩, ?_, ?_, ?_, hq3⟩
      · intro j hj
        cases j with
        | zero =>
          simp only [List.getD_cons_zero]
          omega
        | succ j =>
          simp only [List.getD_cons_succ]
          have hjb : (j + 1) + 1 < (x :: y :: ys).length := by
            simp only [List.length_cons] at hj ⊢
            omega
          have := hbnd (j+1) hjb
          simp only [List.getD_cons_succ] at this
          omega
      · rw [List.getLast?_cons_cons, List.getLast?_cons_cons]
      · show x + q * odoVal q (y :: ys) < (x + 1) + q * odoVal q (y :: ys)
        exact Nat.add_lt_add_right (Nat.lt_succ_self x) _

theorem chkBegin_length (n : ℕ) : (chkBegin n).length = n := by simp [chkBegin]

theorem chkBegin_chain (n : ℕ) : List.Chain' (· > ·) (chkBegin n) := by
  rw [List.chain'_iff_get]
  intro i hi
  simp only [chkBegin, List.length_map, List.length_range] at hi
  simp only [chkBegin, List.get_eq_getElem, List.getElem_map, List.getElem_range]
  omega

theorem chkBegin_getLast (n : ℕ) (hn : 1 ≤ n) : (chkBegin n).getLast? = some 0 := by
  have hlen : (chkBegin n).length = n := chkBegin_length n
  rw [List.getLast?_eq_getElem?, hlen,
    List.getElem?_eq_getElem (by rw [hlen]; omega)]
  simp [chkBegin]

theorem chkBegin_getD (n j : ℕ) (hj : j < n) : (chkBegin n).getD j 0 = n - 1 - j := by
  rw [List.getD_eq_getElem _ _ (by rw [chkBegin_length]; omega)]
  simp [chkBegin]

/-- Invariant of the parity enumerator: length `n`, strictly decreasing,
positional bound `h[j] ≤ q-2-j` on the free coefficients, and terminal
coefficient 0. -/
def ParityInv (q n : ℕ) (h : List ℕ) : Prop :=
  h.length = n ∧ List.Chain' (· > ·) h ∧
  (∀ j, j + 1 < n → h.getD j 0 ≤ q - 2 - j) ∧ h.getLast? = some 0

theorem chkSeq_inv (q n : ℕ) (hn : 2 ≤ n) (hq : n < q) :
    ∀ k h, chkSeq q n k = some h → ParityInv q n h := by
  intro k
  induction k with
  | zero =>
    intro h hh
    simp only [chkSeq, Option.some.injEq] at hh
    subst hh
    refine ⟨chkBegin_length n, chkBegin_chain n, ?_, chkBegin_getLast n (by omega)⟩
    intro j hj
    rw [chkBegin_getD n j (by omega)]
    omega
  | succ k ih =>
    intro h hh
    simp only [chkSeq, Option.bind_eq_some] at hh
    obtain ⟨g, hg, hnext⟩ := hh
    obtain ⟨hl, hc, hb, hlast⟩ := ih g hg
    have hspec := chkNextAux_spec q g 0 h hnext (by omega) hc ?_
    · obtain ⟨hl', hc', hb', hlast', _, _⟩ := hspec
      refine ⟨by omega, hc', ?_, by rw [hlast', hlast]⟩
      intro j hj
      have := hb' j (by omega)
      omega
    · intro j hj
      have := hb j (by omega)
      omega

theorem chkSeq_val_lt (q n : ℕ) (hn : 2 ≤ n) (hq : n < q) :
    ∀ j k h g, j < k → chkSeq q n j = some h → chkSeq q n k = some g →
      odoVal q h < odoVal q g := by
  intro j k
  induction k with
  | zero => intro h g hjk _ _; omega
  | succ k ih =>
    intro h g hjk hh hg
    simp only [chkSeq, Option.bind_eq_some] at hg
    obtain ⟨g0, hg0, hnext⟩ := hg
    obtain ⟨hl, hc, hb, _⟩ := chkSeq_inv q n hn hq k g0 hg0
    have hspec := chkNextAux_spec q g0 0 g hnext (by omega) hc ?_
    · obtain ⟨_, _, _, _, hval, _⟩ := hspec
      rcases Nat.lt_or_ge j k with hjk2 | hje
      · exact lt_trans (ih h g0 hjk2 hh hg0) hval
      · have hjeq : j = k := by omega
        subst hjeq
        rw [hh] at hg0
        injection hg0 with hg0
        rw [hg0]
        exact hval
    · intro i hi
      have := hb i (by omega)
      omega

/-- C4: every parity vector produced by the parity enumerator
(`chk_begin` followed by any number of successful `chk_next` calls) is in
canonical form — coefficients non-increasing with the last coefficient
equal to 0 — and no parity vector is produced twice during one full
enumeration. -/
theorem chk_parities_canonical_and_distinct (q n : ℕ) (hn : 2 ≤ n) (hq : n < q) :
    (∀ k h, chkSeq q n k = some h →
      List.Chain' (· ≥ ·) h ∧ h.getLast? = some 0) ∧
    (∀ j k h g, j < k → chkSeq q n j = some h → chkSeq q n k = some g → h ≠ g) := by
  constructor
  · intro k h hh
    obtain ⟨_, hc, _, hlast⟩ := chkSeq_inv q n hn hq k h hh
    exact ⟨List.Chain'.imp (fun a b hab => le_of_lt hab) hc, hlast⟩
  · intro j k h g hjk hh hg hEq
    have := chkSeq_val_lt q n hn hq j k h g hjk hh hg
    rw [hEq] at this
    omega

/-- Witness for C4: the initial GF(4), n = 3 parity (2,1,0) is canonical. -/
theorem chk_parities_canonical_and_distinct_witness :
    List.Chain' (· ≥ ·) [2,1,0] ∧ ([2,1,0] : List ℕ).getLast? = some 0 :=
  (chk_parities_canonical_and_distinct 4 3 (by decide) (by decide)).1 0 [2,1,0] (by decide)

/-! ### C5: the q = 4, n = 3 end-to-end scenario -/

/-- Counterexample to C5: with q = 4 and n = 3 the parity enumerator
produces exactly one parity, (2,1,0) — the very first `chk_next` already
returns false — not 3; and the coset of that parity contains 16 = q^(n-1)
codewords, not 4 (its 17th codeword request is the first to fail). -/
theorem scenario_q4_n3_counterexample :
    chkSeq 4 3 0 = some [2,1,0] ∧ chkSeq 4 3 1 = none ∧
    (∀ k, k < 16 → (cwSeq 4 (gfExp 7) (gfLog 7) 3 [2,1,0] k).isSome) ∧
    cwSeq 4 (gfExp 7) (gfLog 7) 3 [2,1,0] 16 = none := by
  refine ⟨by decide, by decide, ?_, by decide⟩
  decide

/-- Amended C5: for q = 4 (primitive polynomial 0x7) and n = 3 the engine
enumerates exactly one canonical parity, (2,1,0) — the unique vector of
length 3 that is strictly decreasing, ends in exponent 0 and respects the
positional bounds h[j] ≤ q-2-j enforced by `chk_next` — and its coset
contains exactly q^(n-1) = 16 pairwise distinct codewords. -/
theorem scenario_q4_n3_amended :
    chkSeq 4 3 0 = some [2,1,0] ∧ chkSeq 4 3 1 = none ∧
    (∀ h : List ℕ, (h.length = 3 ∧ List.Chain' (· > ·) h ∧ h.getLast? = some 0 ∧
        (∀ j, j + 1 < 3 → h.getD j 0 ≤ 2 - j)) ↔ h = [2,1,0]) ∧
    (∀ k, k < 16 → (cwSeq 4 (gfExp 7) (gfLog 7) 3 [2,1,0] k).isSome) ∧
    cwSeq 4 (gfExp 7) (gfLog 7) 3 [2,1,0] 16 = none ∧
    (∀ k, k < 16 → ∀ j, j < k →
      cwSeq 4 (gfExp 7) (gfLog 7) 3 [2,1,0] j ≠
        cwSeq 4 (gfExp 7) (gfLog 7) 3 [2,1,0] k) := by
  refine ⟨by decide, by decide, ?_, by decide, by decide, ?_⟩
  · intro h
    constructor
    · rintro ⟨hlen, hchain, hlast, hbnd⟩
      match h, hlen with
      | [a, b, c], _ =>
        obtain ⟨hab, hbc2⟩ := List.chain'_cons.mp hchain
        obtain ⟨hbc, -⟩ := List.chain'_cons.mp hbc2
        have hc0 : c = 0 := by
          rw [List.getLast?_cons_cons, List.getLast?_cons_cons,
            List.getLast?_singleton] at hlast
          exact Option.some.inj hlast
        have ha2 : a ≤ 2 := by simpa using hbnd 0 (by omega)
        have hb1 : b ≤ 1 := by simpa using hbnd 1 (by omega)
        subst hc0
        have hb2 : b = 1 := by omega
        have ha1 : a = 2 := by omega
        rw [hb2, ha1]
    · rintro rfl
      refine ⟨by decide, ?_, by decide, ?_⟩
      · exact List.chain'_cons.mpr ⟨by omega,
          List.chain'_cons.mpr ⟨by omega, List.chain'_singleton 0⟩⟩
      · intro j hj
        have hj2 : j < 2 := by omega
        interval_cases j <;> decide
  · decide

/-- Witness for the amended C5: the single enumerated parity (2,1,0) is
strictly decreasing, bounded, and ends in exponent 0. -/
theorem scenario_q4_n3_amended_witness :
    ([2,1,0] : List ℕ).length = 3 ∧ List.Chain' (· > ·) [2,1,0] ∧
    ([2,1,0] : List ℕ).getLast? = some 0 ∧
    (∀ j, j + 1 < 3 → ([2,1,0] : List ℕ).getD j 0 ≤ 2 - j) :=
  (scenario_q4_n3_amended.2.2.1 [2,1,0]).mpr rfl

/-! ## Spectrum comparison (`sp_cmp` of the richest variant)

A spectrum is modelled as a function `ℕ → ℕ` (the C array
`unsigned long *`).  `sp_cmp` scans the indices `i = 2 .. qmax-1` in
order and decides at the first index where the spectra differ:
it returns 1 when `b[i] > a[i]`, -1 when `b[i] < a[i]`, 0 when no index
differs ("le plus grand le meilleur").
-/

/-- Scan of `sp_cmp` over an explicit index list. -/
def spCmpOn (a b : ℕ → ℕ) : List ℕ → ℤ
  | [] => 0
  | i :: is => if a i = b i then spCmpOn a b is else if b i > a i then 1 else -1

/-- The comparator `sp_cmp a b qmax`: scan indices `[2, qmax)`. -/
def spCmp (qmax : ℕ) (a b : ℕ → ℕ) : ℤ := spCmpOn a b (List.range' 2 (qmax - 2))

theorem spCmpOn_self (a : ℕ → ℕ) : ∀ l, spCmpOn a a l = 0 := by
  intro l
  induction l with
  | nil => rfl
  | cons i is ih => simp [spCmpOn, ih]

theorem spCmpOn_antisymm (a b : ℕ → ℕ) : ∀ l, spCmpOn a b l = - spCmpOn b a l := by
  intro l
  induction l with
  | nil => rfl
  | cons i is ih =>
    simp only [spCmpOn]
    by_cases hi : a i = b i
    · rw [if_pos hi, if_pos hi.symm, ih]
    · have hi2 : ¬ b i = a i := fun hcon => hi hcon.symm
      rw [if_neg hi, if_neg hi2]
      rcases Nat.lt_or_ge (a i) (b i) with hlt | hge
      · rw [if_pos hlt, if_neg (show ¬ b i < a i by omega)]
        decide
      · have hlt2 : b i < a i := by omega
        rw [if_neg (show ¬ a i < b i by omega), if_pos hlt2]

/-- Under agreement away from index `t`, the scan is decided by `t` alone. -/
theorem spCmpOn_single (a b : ℕ → ℕ) (t : ℕ) :
    ∀ l, (∀ i ∈ l, i ≠ t → a i = b i) →
      spCmpOn a b l = if t ∈ l ∧ a t ≠ b t then (if b t > a t then 1 else -1) else 0 := by
  intro l
  induction l with
  | nil => simp [spCmpOn]
  | cons i is ih =>
    intro hag
    by_cases hit : i = t
    · subst hit
      by_cases hdiff : a i = b i
      · simp only [spCmpOn, if_pos hdiff]
        rw [ih (fun j hj hjt => hag j (List.mem_cons_of_mem i hj) hjt)]
        simp [hdiff]
      · simp only [spCmpOn, if_neg hdiff]
        rw [if_pos (show i ∈ i :: is ∧ a i ≠ b i from ⟨List.mem_cons_self i is, hdiff⟩)]
    · have hieq : a i = b i := hag i (List.mem_cons_self i is) hit
      simp only [spCmpOn, if_pos hieq]
      rw [ih (fun j hj hjt => hag j (List.mem_cons_of_mem i hj) hjt)]
      by_cases hts : t ∈ is
      · have htc : t ∈ i :: is := List.mem_cons_of_mem i hts
        simp [hts, htc]
      · have htc : t ∉ i :: is := by
          intro hcon
          rcases List.mem_cons.mp hcon with hcon2 | hcon2
          · exact hit hcon2.symm
          · exact hts hcon2
        simp [hts, htc]

/-- C9: the spectrum comparator is a consistent ordering: `sp_cmp S S`
is always 0 ("equal"); it is antisymmetric (`sp_cmp a b = - sp_cmp b a`,
so `a` better than `b` means `b` worse than `a`); and it is transitive
across any three spectra that differ only in one index. -/
theorem sp_cmp_consistent (qmax : ℕ) :
    (∀ a : ℕ → ℕ, spCmp qmax a a = 0) ∧
    (∀ a b : ℕ → ℕ, spCmp qmax a b = - spCmp qmax b a) ∧
    (∀ t : ℕ, ∀ a b c : ℕ → ℕ,
      (∀ i, i ≠ t → a i = b i) → (∀ i, i ≠ t → b i = c i) →
      spCmp qmax a b = 1 → spCmp qmax b c = 1 → spCmp qmax a c = 1) := by
  refine ⟨fun a => spCmpOn_self a _, fun a b => spCmpOn_antisymm a b _, ?_⟩
  intro t a b c hab hbc h1 h2
  rw [spCmp, spCmpOn_single a b t _ (fun i _ hit => hab i hit)] at h1
  rw [spCmp, spCmpOn_single b c t _ (fun i _ hit => hbc i hit)] at h2
  rw [spCmp, spCmpOn_single a c t _
    (fun i _ hit => (hab i hit).trans (hbc i hit))]
  by_cases hm : t ∈ List.range' 2 (qmax - 2)
  · simp only [hm, true_and] at h1 h2 ⊢
    by_cases hd1 : a t ≠ b t
    · rw [if_pos hd1] at h1
      by_cases hd2 : b t ≠ c t
      · rw [if_pos hd2] at h2
        have hba : b t > a t := by
          by_contra hcon
          rw [if_neg hcon] at h1
          omega
        have hcb : c t > b t := by
          by_contra hcon
          rw [if_neg hcon] at h2
          omega
        rw [if_pos (by omega : a t ≠ c t), if_pos (by omega : c t > a t)]
      · rw [if_neg hd2] at h2
        omega
    · rw [if_neg hd1] at h1
      omega
  · simp only [hm, false_and, if_false] at h1
    omega

/-- Witness for C9 (transitivity branch) at concrete spectra differing
only at index 3, with qmax = 5. -/
theorem sp_cmp_consistent_witness :
    spCmp 5 (fun _ => 0) (fun i => if i = 3 then 2 else 0) = 1 :=
  (sp_cmp_consistent 5).2.2 3 (fun _ => 0) (fun i => if i = 3 then 1 else 0)
    (fun i => if i = 3 then 2 else 0)
    (fun i hi => by simp [hi]) (fun i hi => by simp [hi]) (by decide) (by decide)

/-! ## Neighbour ranking: the selection sort building `V`

The main program initialises each row `V[i]` with the identity
permutation and runs
`for j: for k = j+1 ..: if (Q[i][V[i][k]] < Q[i][V[i][j]]) swap V[i][j], V[i][k]`.
Reading the row as a list, the inner loop carries the current cell
`V[i][j]` along the scan and, whenever a later cell holds a strictly
smaller key, exchanges the two — so the displaced current value takes the
scanned cell's place and the scan continues with the smaller value.
`selInner key x l` is that inner loop (`x` the current cell, `l` the
cells after it); it returns the selected minimum and the later cells
after the swaps.  `selSortGo` is the outer loop, with explicit fuel so
that it reduces in the kernel; `l.length` rounds of selection is exactly
the C outer loop. -/
def selInner (key : ℕ → ℕ) : ℕ → List ℕ → ℕ × List ℕ
  | x, [] => (x, [])
  | x, y :: ys =>
    if key y < key x then
      ((selInner key y ys).1, x :: (selInner key y ys).2)
    else
      ((selInner key x ys).1, y :: (selInner key x ys).2)

/-- Outer loop of the selection sort, with fuel. -/
def selSortGo (key : ℕ → ℕ) : ℕ → List ℕ → List ℕ
  | 0, _ => []
  | _+1, [] => []
  | fuel+1, x :: xs =>
    (selInner key x xs).1 :: selSortGo key fuel (selInner key x xs).2

/-- The full selection sort of one row. -/
def selSort (key : ℕ → ℕ) (l : List ℕ) : List ℕ := selSortGo key l.length l

theorem selInner_length (key : ℕ → ℕ) :
    ∀ l x, (selInner key x l).2.length = l.length := by
  intro l
  induction l with
  | nil => intro x; rfl
  | cons y ys ih =>
    intro x
    by_cases hc : key y < key x
    · simp [selInner, hc, ih y]
    · simp [selInner, hc, ih x]

theorem selInner_perm (key : ℕ → ℕ) :
    ∀ l x, ((selInner key x l).1 :: (selInner key x l).2).Perm (x :: l) := by
  intro l
  induction l with
  | nil => intro x; rfl
  | cons y ys ih =>
    intro x
    by_cases hc : key y < key x
    · simp only [selInner, if_pos hc]
      exact (List.Perm.swap x _ _).trans ((ih y).cons x)
    · simp only [selInner, if_neg hc]
      exact ((List.Perm.swap y _ _).trans ((ih x).cons y)).trans (List.Perm.swap x y ys)

theorem selInner_min (key : ℕ → ℕ) :
    ∀ l x, key ((selInner key x l).1) ≤ key x ∧
      ∀ z ∈ (selInner key x l).2, key ((selInner key x l).1) ≤ key z := by
  intro l
  induction l with
  | nil => intro x; exact ⟨le_refl _, by simp [selInner]⟩
  | cons y ys ih =>
    intro x
    by_cases hc : key y < key x
    · obtain ⟨hm, hall⟩ := ih y
      simp only [selInner, if_pos hc]
      refine ⟨by omega, ?_⟩
      intro z hz
      rcases List.mem_cons.mp hz with rfl | hz
      · omega
      · exact hall z hz
    · obtain ⟨hm, hall⟩ := ih x
      simp only [selInner, if_neg hc]
      refine ⟨hm, ?_⟩
      intro z hz
      rcases List.mem_cons.mp hz with rfl | hz
      · omega
      · exact hall z hz

theorem selSortGo_perm (key : ℕ → ℕ) :
    ∀ fuel l, l.length ≤ fuel → (selSortGo key fuel l).Perm l := by
  intro fuel
  induction fuel with
  | zero =>
    intro l hl
    have hnil : l = [] := List.length_eq_zero.mp (by omega)
    subst hnil
    rfl
  | succ fuel ih =>
    intro l hl
    rcases l with _ | ⟨x, xs⟩
    · rfl
    · have hlen : (selInner key x xs).2.length ≤ fuel := by
        rw [selInner_length]
        simpa using hl
      exact ((ih _ hlen).cons _).trans (selInner_perm key xs x)

theorem selSortGo_pairwise (key : ℕ → ℕ) :
    ∀ fuel l, l.length ≤ fuel →
      (selSortGo key fuel l).Pairwise (fun u v => key u ≤ key v) := by
  intro fuel
  induction fuel with
  | zero => intro l _; exact List.Pairwise.nil
  | succ fuel ih =>
    intro l hl
    rcases l with _ | ⟨x, xs⟩
    · exact List.Pairwise.nil
    · have hlen : (selInner key x xs).2.length ≤ fuel := by
        rw [selInner_length]
        simpa using hl
      refine List.Pairwise.cons ?_ (ih _ hlen)
      intro z hz
      have hz2 : z ∈ (selInner key x xs).2 :=
        (selSortGo_perm key fuel _ hlen).mem_iff.mp hz
      exact (selInner_min key xs x).2 z hz2

/-- C8: after the neighbour-ranking step, every row `V[i]` is a
permutation of `[0, q)` sorted by ascending quadrance, and its first
entry is `i` itself (given what the data model guarantees about a
quadrance row: `Q[i][i] = 0` and `Q[i][j] > 0` for the other mapped
points). -/
theorem V_row_sorted_perm_head (q : ℕ) (Qi : ℕ → ℕ) (i : ℕ) (hi : i < q)
    (hdiag : Qi i = 0) (hoff : ∀ j, j < q → j ≠ i → 0 < Qi j) :
    (selSort Qi (List.range q)).Perm (List.range q) ∧
    (selSort Qi (List.range q)).Pairwise (fun u v => Qi u ≤ Qi v) ∧
    (selSort Qi (List.range q)).head? = some i := by
  have hperm : (selSort Qi (List.range q)).Perm (List.range q) :=
    selSortGo_perm Qi _ _ (by simp)
  have hpair : (selSort Qi (List.range q)).Pairwise (fun u v => Qi u ≤ Qi v) :=
    selSortGo_pairwise Qi _ _ (by simp)
  refine ⟨hperm, hpair, ?_⟩
  have hiL : i ∈ selSort Qi (List.range q) :=
    hperm.mem_iff.mpr (List.mem_range.mpr hi)
  rcases hL : selSort Qi (List.range q) with _ | ⟨m, rest⟩
  · rw [hL] at hiL
    simp at hiL
  · rw [hL] at hiL hperm hpair
    have hm_min : ∀ z ∈ rest, Qi m ≤ Qi z := by
      intro z hz
      exact (List.pairwise_cons.mp hpair).1 z hz
    have hmi : Qi m ≤ Qi i := by
      rcases List.mem_cons.mp hiL with rfl | hir
      · exact le_refl _
      · exact hm_min i hir
    have hmq : m < q := by
      have : m ∈ List.range q := hperm.mem_iff.mp (List.mem_cons_self m rest)
      exact List.mem_range.mp this
    have hm0 : Qi m = 0 := by omega
    have : m = i := by
      by_contra hne
      have := hoff m hmq hne
      omega
    rw [this]
    rfl

/-! ### The square constellation of the regression scenario -/

/-- The four-point unit square constellation (read from the
constellation file in C). -/
def Csq : List (ℤ × ℤ) := [(0,0), (1,0), (0,1), (1,1)]

/-- Quadrance between two mapped points, as the C code computes it:
`unsigned dx = x1 - x2; unsigned dy = y1 - y2; dx*dx + dy*dy` — i.e.
the exact squared distance reduced mod 2^32 (the wrap of a negated
difference squares back to the same residue). -/
def quadPts (p1 p2 : ℤ × ℤ) : ℕ :=
  (((p1.1 - p2.1)^2 + (p1.2 - p2.2)^2).toNat) % 2^32

/-- The quadrance matrix `Q` of the scenario (identity mapping), built
once as in C (`Q[i*q + j] = ...`). -/
def QcTab : List (List ℕ) :=
  (List.range 4).map (fun i =>
    (List.range 4).map (fun j => quadPts (Csq.getD i (0,0)) (Csq.getD j (0,0))))

/-- Table lookup `Q[i*q + j]`. -/
def Qc (i j : ℕ) : ℕ := (QcTab.getD i []).getD j 0

/-- Witness for C8 at the first row of the square-constellation
quadrance matrix. -/
theorem V_row_sorted_perm_head_witness :
    (selSort (Qc 0) (List.range 4)).Perm (List.range 4) ∧
    (selSort (Qc 0) (List.range 4)).Pairwise (fun u v => Qc 0 u ≤ Qc 0 v) ∧
    (selSort (Qc 0) (List.range 4)).head? = some 0 :=
  V_row_sorted_perm_head 4 (Qc 0) 0 (by decide) (by decide)
    (fun j hj hne => by interval_cases j <;> first | exact absurd rfl hne | decide)

/-! ## The depth-adaptive neighbour traversal of the main program

State of the reflected mixed-radix traversal (C scratch arrays `da`,
`df`, `dd` and the running weight `dw`).  The C arrays have length `n`;
`da[n-1]` and `dd[n-1]` are allocated but never read by the loop (the
step terminates as soon as the active index reaches `n-1`), so they are
initialised to the same values as the other cells here. -/
structure TravState where
  da : List ℕ
  df : List ℕ
  dd : List ℤ
  dw : ℕ
deriving DecidableEq, Repr

/-- Initialisation of the traversal for one codeword:
`for j < n-1: da[j]=0, df[j]=j, dd[j]=1; df[n-1]=n-1; dw=0`. -/
def travInit (n : ℕ) : TravState :=
  ⟨List.replicate n 0, List.range n, List.replicate n 1, 0⟩

/-- Unsigned 64-bit addition of a direction `dd[j] ∈ {+1,-1}` to a
`size_t` counter, as the C expression `da[j] + dd[j]` computes it. -/
def addDir (a : ℕ) (d : ℤ) : ℕ :=
  (a + (if d = 1 then 1 else 2^64 - 1)) % 2^64

/-- One advance of the traversal (the tail of the `for(;;)` body after
the emission): read `j = df[0]`, reset `df[0] = 0`, terminate if
`j = n-1`; otherwise update the weight and `da[j]`, and on a boundary
(`da[j] = 0`, `da[j] = q-1`, or the next rank reaching the cutoff
`dcap[dw][x[j]]`) flip the direction and hand the advance position on:
`dd[j] = -dd[j]; df[j] = df[j+1]; df[j+1] = j+1`. -/
def travStep (q n : ℕ) (dcap : ℕ → ℕ → ℕ) (x : List ℕ) (s : TravState) :
    Option TravState :=
  let j := s.df.getD 0 0
  let df1 := s.df.set 0 0
  if j = n - 1 then none
  else
    let dw1 := if s.da.getD j 0 = 0 then s.dw + 1 else s.dw
    let daj := addDir (s.da.getD j 0) (s.dd.getD j 1)
    let da1 := s.da.set j daj
    let dw2 := if daj = 0 then dw1 - 1 else dw1
    if daj = 0 ∨ daj = q - 1 ∨ dcap dw2 (x.getD j 0) ≤ addDir daj (s.dd.getD j 1) then
      some ⟨da1, (df1.set j (df1.getD (j+1) 0)).set (j+1) (j+1),
            s.dd.set j (-(s.dd.getD j 1)), dw2⟩
    else
      some ⟨da1, df1, s.dd, dw2⟩

/-- The emission of one neighbour combination: for `i < n-1`,
`y[i] = V[x[i]][da[i]]` adds `Q[x[i]][y[i]]` to the quadrance and is
accumulated into `y[n-1]` with coefficient `α^{h[i]}`; finally
`Q[x[n-1]][y[n-1]]` is added. -/
def emitQuad (q : ℕ) (Q V : ℕ → ℕ → ℕ) (exp log : ℕ → ℕ) (n : ℕ)
    (h x da : List ℕ) : ℕ :=
  let ys := (List.range (n-1)).map (fun i => V (x.getD i 0) (da.getD i 0))
  let ylast := chkSum q exp log (h.take (n-1)) ys
  ((List.range (n-1)).map
      (fun i => Q (x.getD i 0) (V (x.getD i 0) (da.getD i 0)))).sum
    + Q (x.getD (n-1) 0) ylast

/-- The full traversal loop for one codeword: emit the combination of the
current state, then advance; the returned list is the sequence of emitted
quadrances (`none` only when the fuel runs out, which the theorems below
exclude). -/
def travRun (q n : ℕ) (Q V : ℕ → ℕ → ℕ) (exp log : ℕ → ℕ)
    (dcap : ℕ → ℕ → ℕ) (h x : List ℕ) : ℕ → TravState → Option (List ℕ)
  | 0, _ => none
  | fuel+1, s =>
    let quad := emitQuad q Q V exp log n h x s.da
    match travStep q n dcap x s with
    | none => some [quad]
    | some s2 => (travRun q n Q V exp log dcap h x fuel s2).map (quad :: ·)

/-! ### Spectrum recording (`if (quad < qmax) Scur[quad]++`) -/

/-- The all-zero spectrum (`memset(Scur, 0, ...)`). -/
def zeroS : ℕ → ℕ := fun _ => 0

/-- Record one emitted combination into a spectrum. -/
def spRecord (qmax : ℕ) (S : ℕ → ℕ) (quad : ℕ) : ℕ → ℕ :=
  if quad < qmax then Function.update S quad (S quad + 1) else S

/-- Accumulate a list of emitted quadrances into a spectrum. -/
def spAccum (qmax : ℕ) (S : ℕ → ℕ) (quads : List ℕ) : ℕ → ℕ :=
  quads.foldl (spRecord qmax) S

theorem spAccum_apply (qmax : ℕ) :
    ∀ (quads : List ℕ) (S : ℕ → ℕ) (t : ℕ),
      spAccum qmax S quads t =
        S t + (if t < qmax then quads.count t else 0) := by
  intro quads
  induction quads with
  | nil => intro S t; simp [spAccum]
  | cons a l ih =>
    intro S t
    rw [spAccum, List.foldl_cons, ← spAccum, ih]
    by_cases hq : a < qmax
    · by_cases hat : a = t
      · subst hat
        simp [spRecord, if_pos hq, Function.update_same, List.count_cons, if_pos hq]
        omega
      · have : t ≠ a := fun hcon => hat hcon.symm
        simp [spRecord, if_pos hq, Function.update_noteq this, List.count_cons, hat]
    · by_cases hat : a = t
      · subst hat
        simp [spRecord, if_neg hq, List.count_cons]
      · simp [spRecord, if_neg hq, List.count_cons, hat]

/-- Every spectrum index at or above `qmax` is never written: recording is
guarded by `quad < qmax`. -/
theorem spAccum_zero_of_ge (qmax : ℕ) (quads : List ℕ) (t : ℕ) (ht : qmax ≤ t) :
    spAccum qmax zeroS quads t = 0 := by
  rw [spAccum_apply, if_neg (by omega)]
  rfl

/-! ### The brute-force reference enumeration (from the specification)

Modelled from the spec: the reference implementation loops every
coordinate's neighbour rank from 0 to q-1 (no cutoff table) and records
every combination, computing the same exact quadrance. -/

/-- All rank tuples of length `m` over `[0, q)`. -/
def allTuples (q : ℕ) : ℕ → List (List ℕ)
  | 0 => [[]]
  | m+1 => (List.range q).flatMap (fun d => (allTuples q m).map (d :: ·))

/-- Brute-force emissions: every rank combination, exhaustively. -/
def bruteQuads (q : ℕ) (Q V : ℕ → ℕ → ℕ) (exp log : ℕ → ℕ) (n : ℕ)
    (h x : List ℕ) : List ℕ :=
  (allTuples q (n-1)).map (emitQuad q Q V exp log n h x)

/-! ### Instantiation at the regression scenario (q = 4, square
constellation, identity mapping) -/

/-- Row-sorted neighbour table `V` of the scenario, built once as in C. -/
def VcTab : List (List ℕ) := (List.range 4).map (fun i => selSort (Qc i) (List.range 4))

/-- Table lookup `V[i*q + j]`. -/
def Vc (i j : ℕ) : ℕ := (VcTab.getD i []).getD j 0

/-- The global minimum nonzero quadrance `cqmin` as the richest variant
computes it: start from `Q[0][1]` and lower it with each
`Q[i][V[i][1]]`, i = 1..q-1. -/
def cqminC : ℕ :=
  (List.range' 1 3).foldl
    (fun c i => if Qc i (Vc i 1) < c then Qc i (Vc i 1) else c) (Qc 0 1)

/-- Unsigned 32-bit subtraction `a - b` as C computes it on `unsigned`. -/
def usub32 (a b : ℕ) : ℕ := (a + (2^32 - b % 2^32)) % 2^32

/-- One cell of the cutoff table:
`dcap[w][j]` = first rank `d` with `Q[j][V[j][d]] > qmax - (w>2 ? w-1 : 1)*cqmin`
(`q` when no rank exceeds the budget; the subtraction wraps on
`unsigned`). -/
def dcapEntry (qmax w j : ℕ) : ℕ :=
  (List.range 4).findIdx
    (fun d => decide (usub32 qmax ((if 2 < w then w - 1 else 1) * cqminC) <
      Qc j (Vc j d)))

/-- The cutoff table of the scenario, with its `n` rows (`w < n = 3`),
as allocated by `malloc(n * q * sizeof *dcap)`. -/
def dcapTab (qmax : ℕ) : List (List ℕ) :=
  (List.range 3).map (fun w => (List.range 4).map (fun j => dcapEntry qmax w j))

/-- Table lookup `dcap[w * q + j]`. -/
def dcapC (qmax : ℕ) (w j : ℕ) : ℕ := ((dcapTab qmax).getD w []).getD j 0

/-- The pruned traversal of the scenario, for one codeword. -/
def travEmitsC (h x : List ℕ) (qmax : ℕ) : Option (List ℕ) :=
  travRun 4 3 Qc Vc (gfExp 7) (gfLog 7) (dcapC qmax) h x 200 (travInit 3)

/-- The brute-force reference of the scenario, for one codeword. -/
def bruteQuadsC (h x : List ℕ) : List ℕ :=
  bruteQuads 4 Qc Vc (gfExp 7) (gfLog 7) 3 h x

/-! ### Stability of the cutoff table above qmax = 3

For the square constellation every sorted row quadrance is at most 2 and
the minimum nonzero quadrance is 1, so as soon as `qmax ≥ 3` the budget
`qmax - cqmin` is at least 2 and no rank is ever cut: every table cell is
`q = 4`, independently of `qmax`. -/

theorem usub32_one (qmax : ℕ) (h1 : 1 ≤ qmax) (h2 : qmax < 2^32) :
    usub32 qmax 1 = qmax - 1 := by
  rw [usub32]
  have he : qmax + (2^32 - 1 % 2^32) = (qmax - 1) + 2^32 := by
    have : (1:ℕ) % 2^32 = 1 := by norm_num
    omega
  rw [he, Nat.add_mod_right]
  exact Nat.mod_eq_of_lt (by omega)

theorem dcapTab_stable (qmax : ℕ) (h3 : 3 ≤ qmax) (h32 : qmax < 2^32) :
    dcapTab qmax = dcapTab 3 := by
  have hrow : ∀ j < 4, ∀ d < 4, Qc j (Vc j d) ≤ 2 := by decide
  have hcq : cqminC = 1 := by decide
  have hentry : ∀ w, w < 3 → ∀ j, j < 4 → dcapEntry qmax w j = dcapEntry 3 w j := by
    intro w hw j hj
    have hmu : (if 2 < w then w - 1 else 1) = 1 := by
      rw [if_neg (by omega)]
    have hfalse : ∀ (qm : ℕ), 3 ≤ qm → qm < 2^32 → dcapEntry qm w j = 4 := by
      intro qm hqm3 hqm32
      rw [dcapEntry]
      have hlen4 : (List.range 4).length = 4 := by simp
      rw [← hlen4]
      refine List.findIdx_eq_length_of_false ?_
      intro d hd
      have hd4 : d < 4 := List.mem_range.mp hd
      rw [hmu, hcq, Nat.mul_one, usub32_one qm (by omega) hqm32]
      simp only [decide_eq_false_iff_not, not_lt]
      have := hrow j hj d hd4
      omega
    rw [hfalse qmax h3 h32, hfalse 3 (by omega) (by norm_num)]
  rw [dcapTab, dcapTab]
  refine List.map_congr_left ?_
  intro w hw
  refine List.map_congr_left ?_
  intro j hj
  exact hentry w (List.mem_range.mp hw) j (List.mem_range.mp hj)

theorem dcapC_stable (qmax : ℕ) (h3 : 3 ≤ qmax) (h32 : qmax < 2^32) :
    dcapC qmax = dcapC 3 := by
  funext w j
  rw [dcapC, dcapC, dcapTab_stable qmax h3 h32]

theorem travEmitsC_stable (h x : List ℕ) (qmax : ℕ) (h3 : 3 ≤ qmax)
    (h32 : qmax < 2^32) : travEmitsC h x qmax = travEmitsC h x 3 := by
  rw [travEmitsC, travEmitsC, dcapC_stable qmax h3 h32]

/-! ### Literal forms of the scenario tables

To keep kernel evaluation of the decided equivalences cheap, the tables
of the scenario are proved equal, once, to their literal values; the
traversal is then evaluated over the literal forms. -/

/-- Literal antilog table of GF(4). -/
def expF (k : ℕ) : ℕ := ([1,2,3] : List ℕ).getD k 0

/-- Literal log table of GF(4). -/
def logF (x : ℕ) : ℕ := ([1,2,3] : List ℕ).indexOf x

/-- Literal quadrance matrix of the scenario. -/
def QF (i j : ℕ) : ℕ :=
  (([[0,1,1,2],[1,0,2,1],[1,2,0,1],[2,1,1,0]] : List (List ℕ)).getD i []).getD j 0

/-- Literal neighbour table of the scenario. -/
def VF (i j : ℕ) : ℕ :=
  (([[0,1,2,3],[1,0,3,2],[2,0,3,1],[3,2,1,0]] : List (List ℕ)).getD i []).getD j 0

/-- Cutoff lookup in a literal table. -/
def dcapF (tab : List (List ℕ)) (w j : ℕ) : ℕ := (tab.getD w []).getD j 0

/-- Cutoff table with every cell 4 (qmax = 0 by wrap-around, and every
qmax ≥ 3). -/
def tabAll4 : List (List ℕ) := [[4,4,4,4],[4,4,4,4],[4,4,4,4]]

/-- Cutoff table for qmax = 1. -/
def tabAll1 : List (List ℕ) := [[1,1,1,1],[1,1,1,1],[1,1,1,1]]

/-- Cutoff table for qmax = 2. -/
def tabAll3 : List (List ℕ) := [[3,3,3,3],[3,3,3,3],[3,3,3,3]]

theorem gfExp7_eq : gfExp 7 = expF := by
  funext k
  rw [gfExp, show gfExpList 7 = [1,2,3] from by decide]
  rfl

theorem gfLog7_eq : gfLog 7 = logF := by
  funext x
  rw [gfLog, show gfExpList 7 = [1,2,3] from by decide]
  rfl

theorem Qc_eq : Qc = QF := by
  funext i j
  rw [Qc, show QcTab = [[0,1,1,2],[1,0,2,1],[1,2,0,1],[2,1,1,0]] from by decide]
  rfl

theorem Vc_eq : Vc = VF := by
  funext i j
  rw [Vc, show VcTab = [[0,1,2,3],[1,0,3,2],[2,0,3,1],[3,2,1,0]] from by decide]
  rfl

theorem dcapC0_eq : dcapC 0 = dcapF tabAll4 := by
  funext w j
  rw [dcapC, show dcapTab 0 = tabAll4 from by decide]
  rfl

theorem dcapC1_eq : dcapC 1 = dcapF tabAll1 := by
  funext w j
  rw [dcapC, show dcapTab 1 = tabAll1 from by decide]
  rfl

theorem dcapC2_eq : dcapC 2 = dcapF tabAll3 := by
  funext w j
  rw [dcapC, show dcapTab 2 = tabAll3 from by decide]
  rfl

theorem dcapC3_eq : dcapC 3 = dcapF tabAll4 := by
  funext w j
  rw [dcapC, show dcapTab 3 = tabAll4 from by decide]
  rfl

/-- The coset enumerator over the literal tables. -/
def cwSeqF (h : List ℕ) (k : ℕ) : Option (List ℕ) := cwSeq 4 expF logF 3 h k

theorem cwSeqC_eq (h : List ℕ) (k : ℕ) :
    cwSeq 4 (gfExp 7) (gfLog 7) 3 h k = cwSeqF h k := by
  rw [cwSeqF, gfExp7_eq, gfLog7_eq]

/-- The pruned traversal over the literal tables, for a literal cutoff
table. -/
def travEmitsF (tab : List (List ℕ)) (h x : List ℕ) : Option (List ℕ) :=
  travRun 4 3 QF VF expF logF (dcapF tab) h x 200 (travInit 3)

theorem travEmitsC0_eq (h x : List ℕ) : travEmitsC h x 0 = travEmitsF tabAll4 h x := by
  rw [travEmitsC, travEmitsF, Qc_eq, Vc_eq, gfExp7_eq, gfLog7_eq, dcapC0_eq]

theorem travEmitsC1_eq (h x : List ℕ) : travEmitsC h x 1 = travEmitsF tabAll1 h x := by
  rw [travEmitsC, travEmitsF, Qc_eq, Vc_eq, gfExp7_eq, gfLog7_eq, dcapC1_eq]

theorem travEmitsC2_eq (h x : List ℕ) : travEmitsC h x 2 = travEmitsF tabAll3 h x := by
  rw [travEmitsC, travEmitsF, Qc_eq, Vc_eq, gfExp7_eq, gfLog7_eq, dcapC2_eq]

theorem travEmitsC3_eq (h x : List ℕ) : travEmitsC h x 3 = travEmitsF tabAll4 h x := by
  rw [travEmitsC, travEmitsF, Qc_eq, Vc_eq, gfExp7_eq, gfLog7_eq, dcapC3_eq]

/-- The brute-force reference over the literal tables. -/
def bruteF (h x : List ℕ) : List ℕ := bruteQuads 4 QF VF expF logF 3 h x

theorem bruteC_eq (h x : List ℕ) : bruteQuadsC h x = bruteF h x := by
  rw [bruteQuadsC, bruteF, Qc_eq, Vc_eq, gfExp7_eq, gfLog7_eq]

/-- One decided equivalence case: the three pruned traversals of a
codeword (cutoff tables of qmax = 1, of qmax = 2, and of qmax = 0 or
any qmax ≥ 3) all complete, their recorded counts below the respective
bound agree with the brute-force reference, and without effective
pruning the emissions are a permutation of the brute-force emissions. -/
def travCaseOk (h x : List ℕ) : Bool :=
  match travEmitsF tabAll4 h x, travEmitsF tabAll1 h x, travEmitsF tabAll3 h x with
  | some L0, some L1, some L2 =>
    (L1.count 0 == (bruteF h x).count 0) &&
    (L2.count 0 == (bruteF h x).count 0) &&
    (L2.count 1 == (bruteF h x).count 1) &&
    decide ((L0 : Multiset ℕ) = (bruteF h x : Multiset ℕ))
  | _, _, _ => false

theorem travCaseOk_spec (h x : List ℕ) (hok : travCaseOk h x = true) :
    (∃ L0, travEmitsF tabAll4 h x = some L0 ∧
      (L0 : Multiset ℕ) = (bruteF h x : Multiset ℕ)) ∧
    (∃ L1, travEmitsF tabAll1 h x = some L1 ∧
      L1.count 0 = (bruteF h x).count 0) ∧
    (∃ L2, travEmitsF tabAll3 h x = some L2 ∧
      L2.count 0 = (bruteF h x).count 0 ∧ L2.count 1 = (bruteF h x).count 1) := by
  rw [travCaseOk] at hok
  rcases h0 : travEmitsF tabAll4 h x with _ | L0 <;> rw [h0] at hok
  · simp at hok
  rcases h1 : travEmitsF tabAll1 h x with _ | L1 <;> rw [h1] at hok
  · simp at hok
  rcases h2 : travEmitsF tabAll3 h x with _ | L2 <;> rw [h2] at hok
  · simp at hok
  simp only [Bool.and_eq_true, beq_iff_eq, decide_eq_true_eq] at hok
  obtain ⟨⟨⟨hc1, hc2⟩, hc3⟩, hperm⟩ := hok
  exact ⟨⟨L0, rfl, hperm⟩, ⟨L1, rfl, hc1⟩, ⟨L2, rfl, hc2, hc3⟩⟩

/-- All 16 coset codewords of one parity pass the equivalence check. -/
def travCaseAll (h0 h1 : ℕ) : Bool :=
  (List.range 16).all (fun k => travCaseOk [h0, h1, 0] ((cwSeqF [h0, h1, 0] k).getD []))

set_option maxHeartbeats 1000000 in
set_option maxRecDepth 10000 in
/-- Decided equivalence check for the parity with exponents (0,0,0). -/
theorem travCaseAll_00 : travCaseAll 0 0 = true := by decide

set_option maxHeartbeats 1000000 in
set_option maxRecDepth 10000 in
/-- Decided equivalence check for the parity with exponents (0,1,0). -/
theorem travCaseAll_01 : travCaseAll 0 1 = true := by decide

set_option maxHeartbeats 1000000 in
set_option maxRecDepth 10000 in
/-- Decided equivalence check for the parity with exponents (0,2,0). -/
theorem travCaseAll_02 : travCaseAll 0 2 = true := by decide

set_option maxHeartbeats 1000000 in
set_option maxRecDepth 10000 in
/-- Decided equivalence check for the parity with exponents (1,0,0). -/
theorem travCaseAll_10 : travCaseAll 1 0 = true := by decide

set_option maxHeartbeats 1000000 in
set_option maxRecDepth 10000 in
/-- Decided equivalence check for the parity with exponents (1,1,0). -/
theorem travCaseAll_11 : travCaseAll 1 1 = true := by decide

set_option maxHeartbeats 1000000 in
set_option maxRecDepth 10000 in
/-- Decided equivalence check for the parity with exponents (1,2,0). -/
theorem travCaseAll_12 : travCaseAll 1 2 = true := by decide

set_option maxHeartbeats 1000000 in
set_option maxRecDepth 10000 in
/-- Decided equivalence check for the parity with exponents (2,0,0). -/
theorem travCaseAll_20 : travCaseAll 2 0 = true := by decide

set_option maxHeartbeats 1000000 in
set_option maxRecDepth 10000 in
/-- Decided equivalence check for the parity with exponents (2,1,0). -/
theorem travCaseAll_21 : travCaseAll 2 1 = true := by decide

set_option maxHeartbeats 1000000 in
set_option maxRecDepth 10000 in
/-- Decided equivalence check for the parity with exponents (2,2,0). -/
theorem travCaseAll_22 : travCaseAll 2 2 = true := by decide

/-- Decided core: every parity with exponents below 3 and all 16
codewords of its coset pass the equivalence check. -/
theorem trav_cases : ∀ h0, h0 < 3 → ∀ h1, h1 < 3 → ∀ k, k < 16 →
    travCaseOk [h0,h1,0] ((cwSeqF [h0,h1,0] k).getD []) = true := by
  intro h0 hh0 h1 hh1 k hk
  have hall : travCaseAll h0 h1 = true := by
    interval_cases h0 <;> interval_cases h1
    · exact travCaseAll_00
    · exact travCaseAll_01
    · exact travCaseAll_02
    · exact travCaseAll_10
    · exact travCaseAll_11
    · exact travCaseAll_12
    · exact travCaseAll_20
    · exact travCaseAll_21
    · exact travCaseAll_22
  simp only [travCaseAll, List.all_eq_true, List.mem_range] at hall
  exact hall k hk

/-- C1: for every parity vector (exponent form, last exponent 0) and
every codeword of its coset in the q = 4 regression scenario, and for
every bound `qmax` (as a 32-bit `unsigned`), the depth-adaptive pruned
traversal (direction flags `dd`, advance structure `df`, cutoff table
`dcap`) terminates and produces exactly the same spectrum as the
brute-force reference that loops every coordinate's neighbour rank from
0 to q-1 and records every combination with total quadrance below
`qmax`: the cutoff never excludes a combination whose true total
quadrance is below `qmax`. -/
theorem pruned_traversal_matches_brute_force (h0 h1 : ℕ) (hh0 : h0 < 3)
    (hh1 : h1 < 3) (k : ℕ) (hk : k < 16) (x : List ℕ)
    (hx : cwSeq 4 (gfExp 7) (gfLog 7) 3 [h0,h1,0] k = some x)
    (qmax : ℕ) (h32 : qmax < 2^32) :
    ∃ L, travEmitsC [h0,h1,0] x qmax = some L ∧
      ∀ t, spAccum qmax zeroS L t =
        spAccum qmax zeroS (bruteQuadsC [h0,h1,0] x) t := by
  have hxg : x = (cwSeqF [h0,h1,0] k).getD [] := by
    rw [← cwSeqC_eq, hx]
    rfl
  have hok := trav_cases h0 hh0 h1 hh1 k hk
  rw [← hxg] at hok
  obtain ⟨⟨L0, hL0, hperm⟩, ⟨L1, hL1, hc1⟩, ⟨L2, hL2, hc2, hc3⟩⟩ :=
    travCaseOk_spec [h0,h1,0] x hok
  have hbrute := bruteC_eq [h0,h1,0] x
  have key : ∀ (L : List ℕ),
      (∀ t, t < qmax → L.count t = (bruteF [h0,h1,0] x).count t) →
      ∀ t, spAccum qmax zeroS L t = spAccum qmax zeroS (bruteQuadsC [h0,h1,0] x) t := by
    intro L hcnt t
    rw [spAccum_apply, spAccum_apply, hbrute]
    by_cases ht : t < qmax
    · rw [if_pos ht, if_pos ht, hcnt t ht]
    · rw [if_neg ht, if_neg ht]
  rcases Nat.lt_or_ge qmax 3 with hq3 | hq3
  · interval_cases qmax
    · exact ⟨L0, by rw [travEmitsC0_eq]; exact hL0, key L0 (fun t ht => by omega)⟩
    · refine ⟨L1, by rw [travEmitsC1_eq]; exact hL1, key L1 ?_⟩
      intro t ht
      have ht0 : t = 0 := by omega
      rw [ht0]
      exact hc1
    · refine ⟨L2, by rw [travEmitsC2_eq]; exact hL2, key L2 ?_⟩
      intro t ht
      interval_cases t
      · exact hc2
      · exact hc3
  · refine ⟨L0, ?_, key L0 ?_⟩
    · rw [travEmitsC_stable _ _ qmax hq3 h32, travEmitsC3_eq]
      exact hL0
    · intro t ht
      have hcg := congrArg (Multiset.count t) hperm
      simpa [Multiset.coe_count] using hcg

/-- Witness for C1 at the parity (2,1,0), its second codeword and
qmax = 5. -/
theorem pruned_traversal_matches_brute_force_witness :
    ∃ L, travEmitsC [2,1,0] [1,0,3] 5 = some L ∧
      ∀ t, spAccum 5 zeroS L t =
        spAccum 5 zeroS (bruteQuadsC [2,1,0] [1,0,3]) t :=
  pruned_traversal_matches_brute_force 2 1 (by decide) (by decide) 1 (by decide)
    [1,0,3] (by decide) 5 (by norm_num)

/-! ## The engine driver of the richest variant

The codeword loop
`do { ...traversal accumulating Scur... } while (cw_next && sp_cmp(Sbest, Scur) <= 0)`
and the parity loop around it, with the best-spectrum update
`if (sp_cmp(Sbest, Scur) <= 0) memcpy(Sbest, Scur, ...)`.
`Scur` is carried as the list of quadrances emitted so far for the
current parity; its spectrum is `spAccum qmax zeroS`. -/

/-- Initial best spectrum: `Sbest[i] = UINT_MAX` for `i < qmax`. -/
def sbestInit (qmax : ℕ) : ℕ → ℕ := fun i => if i < qmax then 2^32 - 1 else 0

/-- The codeword (coset) loop for one parity. -/
def cosetRun (qmax : ℕ) (h : List ℕ) (Sbest : ℕ → ℕ) :
    ℕ → List ℕ → List ℕ → Option (List ℕ)
  | 0, _, _ => none
  | fuel+1, x, quads =>
    match travEmitsC h x qmax with
    | none => none
    | some qs =>
      match cwNext 4 (gfExp 7) (gfLog 7) 3 h x with
      | none => some (quads ++ qs)
      | some x2 =>
        if spCmp qmax Sbest (spAccum qmax zeroS (quads ++ qs)) ≤ 0 then
          cosetRun qmax h Sbest fuel x2 (quads ++ qs)
        else some (quads ++ qs)

/-- The parity loop; returns the per-parity emission lists. -/
def parityRun (qmax : ℕ) :
    ℕ → List ℕ → (ℕ → ℕ) → List (List ℕ × List ℕ) →
      Option (List (List ℕ × List ℕ))
  | 0, _, _, _ => none
  | fuel+1, h, Sbest, acc =>
    match cosetRun qmax h Sbest 20 (cwBegin 3) [] with
    | none => none
    | some quads =>
      match chkNext 4 h with
      | none => some (acc ++ [(h, quads)])
      | some h2 =>
        parityRun qmax fuel h2
          (if spCmp qmax Sbest (spAccum qmax zeroS quads) ≤ 0
           then spAccum qmax zeroS quads else Sbest)
          (acc ++ [(h, quads)])

/-- The whole search of the scenario for a given `qmax`. -/
def engineRun (qmax : ℕ) : Option (List (List ℕ × List ℕ)) :=
  parityRun qmax 5 (chkBegin 3) (sbestInit qmax) []

/-- C7: the search never records a quadrance at or above `qmax` into a
spectrum — recording is guarded by `quad < qmax`, so every spectrum index
ever incremented stays below `qmax` — and in the boundary case
`qmax = 0` the full engine still terminates with the spectrum of every
parity all zeros. -/
theorem spectrum_never_records_ge_qmax :
    (∀ qmax (quads : List ℕ) (t : ℕ), qmax ≤ t →
      spAccum qmax zeroS quads t = 0) ∧
    (engineRun 0).isSome ∧
    (∀ p ∈ (engineRun 0).getD [], ∀ t : ℕ, spAccum 0 zeroS p.2 t = 0) := by
  refine ⟨fun qmax quads t ht => spAccum_zero_of_ge qmax quads t ht, by decide, ?_⟩
  intro p _ t
  exact spAccum_zero_of_ge 0 p.2 t (by omega)

/-- Witness for C7: a quadrance of 5 with qmax = 3 is never recorded. -/
theorem spectrum_never_records_ge_qmax_witness :
    spAccum 3 zeroS [5, 2, 7] 5 = 0 :=
  spectrum_never_records_ge_qmax.1 3 [5, 2, 7] 5 (by omega)

/-! ### C10: only indices [2, qmax) influence the comparison -/

theorem spCmpOn_zero_of_agree (a b : ℕ → ℕ) :
    ∀ l, (∀ i ∈ l, a i = b i) → spCmpOn a b l = 0 := by
  intro l
  induction l with
  | nil => intro _; rfl
  | cons i is ih =>
    intro hag
    rw [spCmpOn, if_pos (hag i (List.mem_cons_self i is))]
    exact ih fun j hj => hag j (List.mem_cons_of_mem i hj)

/-- First emission of the traversal: the combination of the initial state. -/
theorem travRun_head (q n : ℕ) (Q V : ℕ → ℕ → ℕ) (exp log : ℕ → ℕ)
    (dcap : ℕ → ℕ → ℕ) (h x : List ℕ) (fuel : ℕ) (s : TravState) (L : List ℕ)
    (hL : travRun q n Q V exp log dcap h x fuel s = some L) :
    L.head? = some (emitQuad q Q V exp log n h x s.da) := by
  cases fuel with
  | zero => simp [travRun] at hL
  | succ fuel =>
    simp only [travRun] at hL
    rcases hstep : travStep q n dcap x s with _ | s2 <;> rw [hstep] at hL
    · simp only [Option.some.injEq] at hL
      rw [← hL]
      rfl
    · simp only [Option.map_eq_some'] at hL
      obtain ⟨L2, _, rfl⟩ := hL
      rfl

/-- Statement form of the decided core for C10. -/
def emitQuadInitProp (h0 h1 x0 x1 x2 : ℕ) : Prop :=
  chkValid 4 (gfExp 7) (gfLog 7) 3 [h0,h1,0] [x0,x1,x2] = true →
  emitQuad 4 Qc Vc (gfExp 7) (gfLog 7) 3 [h0,h1,0] [x0,x1,x2]
    (List.replicate 3 0) = 0

instance emitQuadInitProp.decidable (h0 h1 x0 x1 x2 : ℕ) :
    Decidable (emitQuadInitProp h0 h1 x0 x1 x2) := by
  unfold emitQuadInitProp
  infer_instance

/-- Decided core for C10: the initial combination (all ranks 0) of any
codeword maps every coordinate to itself, so its exact quadrance is 0. -/
theorem emitQuad_init_core : ∀ h0, h0 < 3 → ∀ h1, h1 < 3 →
    ∀ x0, x0 < 4 → ∀ x1, x1 < 4 → ∀ x2, x2 < 4 →
    emitQuadInitProp h0 h1 x0 x1 x2 := by
  decide

/-- C10: the spectrum comparator examines only quadrance indices 2 to
qmax-1 — two spectra that agree on every index in `[2, qmax)` compare as
equal, so counts recorded at quadrances 0 and 1 never influence which
parity is selected as best — and the traversal does emit the
zero-quadrance self-combination `y = x` first and, whenever `qmax > 0`,
records it. -/
theorem sp_cmp_ignores_low_indices :
    (∀ qmax (a b : ℕ → ℕ), (∀ i, 2 ≤ i → i < qmax → a i = b i) →
      spCmp qmax a b = 0) ∧
    (∀ h0 h1 x0 x1 x2 : ℕ, h0 < 3 → h1 < 3 → x0 < 4 → x1 < 4 → x2 < 4 →
      chkValid 4 (gfExp 7) (gfLog 7) 3 [h0,h1,0] [x0,x1,x2] = true →
      ∀ qmax (L : List ℕ), travEmitsC [h0,h1,0] [x0,x1,x2] qmax = some L →
        L.head? = some 0 ∧ (0 < qmax → 0 < spAccum qmax zeroS L 0)) := by
  constructor
  · intro qmax a b hag
    refine spCmpOn_zero_of_agree a b _ ?_
    intro i hi
    rw [List.mem_range'_1] at hi
    exact hag i (by omega) (by omega)
  · intro h0 h1 x0 x1 x2 hh0 hh1 hx0 hx1 hx2 hvalid qmax L hL
    have hhead : L.head? = some 0 := by
      have := travRun_head 4 3 Qc Vc (gfExp 7) (gfLog 7) (dcapC qmax)
        [h0,h1,0] [x0,x1,x2] 200 (travInit 3) L hL
      rw [this]
      have hinit : (travInit 3).da = List.replicate 3 0 := rfl
      rw [hinit, emitQuad_init_core h0 hh0 h1 hh1 x0 hx0 x1 hx1 x2 hx2 hvalid]
    refine ⟨hhead, ?_⟩
    intro hq
    have hmem : 0 ∈ L := by
      rcases L with _ | ⟨a, L2⟩
      · simp at hhead
      · simp only [List.head?_cons, Option.some.injEq] at hhead
        rw [hhead]
        exact List.mem_cons_self 0 L2
    rw [spAccum_apply, if_pos hq]
    have := List.count_pos_iff.mpr hmem
    omega

/-- Witness for C10 at the parity (2,1,0) and the all-zero codeword. -/
theorem sp_cmp_ignores_low_indices_witness :
    ([0, 3, 2, 3, 3, 4, 3, 2, 3, 2, 3, 4, 6, 3, 4, 3] : List ℕ).head? = some 0 ∧
      (0 < 5 → 0 < spAccum 5 zeroS [0, 3, 2, 3, 3, 4, 3, 2, 3, 2, 3, 4, 6, 3, 4, 3] 0) :=
  sp_cmp_ignores_low_indices.2 2 1 0 0 0 (by decide) (by decide)
    (by decide) (by decide) (by decide) (by decide) 5
    [0, 3, 2, 3, 3, 4, 3, 2, 3, 2, 3, 4, 6, 3, 4, 3] (by decide)

end BestParity
